import Mathlib

/-!
Shallow embedding of the Tool-X maintenance scripts
(scripts/enhance_tools_git.py and core/update_versions.py).

JSON/Python values are modelled by the mutually inductive types PyVal,
PyList and PyDict; fallible Python code (code that can raise) is
modelled with Except PyErr; the network is modelled as a queue of
per-attempt outcomes consumed in order by each HTTP request attempt,
an exhausted queue standing for a network error on every further
attempt.  All definitions are translated from the source; string
primitives (strip, lower, replace, urlparse) are modelled for the
ASCII fragment the catalog uses.
-/

set_option autoImplicit false

mutual
/-- Model of a Python/JSON value as it occurs in the catalog file and
in API response bodies. -/
inductive PyVal where
  | vnull
  | vbool (b : Bool)
  | vint (n : Int)
  | vstr (s : String)
  | vlist (l : PyList)
  | vdict (l : PyDict)
deriving DecidableEq
/-- A Python list of values. -/
inductive PyList where
  | nil
  | cons (head : PyVal) (tail : PyList)
deriving DecidableEq
/-- A Python dict with string keys, as JSON objects have. -/
inductive PyDict where
  | dnil
  | dcons (key : String) (val : PyVal) (tail : PyDict)
deriving DecidableEq
end

def PyList.isEmpty : PyList → Bool
  | .nil => true
  | .cons _ _ => false

def PyDict.isEmpty : PyDict → Bool
  | .dnil => true
  | .dcons _ _ _ => false

/-- Python dict lookup (first binding wins, as the JSON parser keeps a
single binding per key). -/
def PyDict.lookup : PyDict → String → Option PyVal
  | .dnil, _ => none
  | .dcons k v rest, key => if k = key then some v else rest.lookup key

/-- dict.get k with default None. -/
def PyDict.get (d : PyDict) (k : String) : PyVal := (d.lookup k).getD .vnull

/-- dict.get k with an explicit default. -/
def PyDict.getD (d : PyDict) (k : String) (dfl : PyVal) : PyVal :=
  (d.lookup k).getD dfl

/-- The keys of a dict, in order; iterating a Python dict visits its
keys. -/
def PyDict.keys : PyDict → List String
  | .dnil => []
  | .dcons k _ rest => k :: rest.keys

def PyList.ofList : List PyVal → PyList
  | [] => .nil
  | v :: vs => .cons v (PyList.ofList vs)

/-- Python truthiness: None, False, 0, empty string and empty
containers are falsy. -/
def PyVal.truthy : PyVal → Bool
  | vnull => false
  | vbool b => b
  | vint n => n ≠ 0
  | vstr s => s ≠ ""
  | vlist l => !l.isEmpty
  | vdict l => !l.isEmpty

/-- Python exceptions that the modelled code can raise. -/
inductive PyErr where
  | attributeError
  | typeError
  | valueError
  | keyError
  | requestError
deriving DecidableEq

deriving instance DecidableEq for Except

/-! ### ASCII string primitives (str.strip, str.lower, str.replace) -/

/-- The ASCII uppercase/lowercase pairs; str.lower is modelled on the
ASCII fragment, every other character is left unchanged. -/
def asciiPairs : List (Char × Char) :=
  [('A','a'),('B','b'),('C','c'),('D','d'),('E','e'),('F','f'),('G','g'),
   ('H','h'),('I','i'),('J','j'),('K','k'),('L','l'),('M','m'),('N','n'),
   ('O','o'),('P','p'),('Q','q'),('R','r'),('S','s'),('T','t'),('U','u'),
   ('V','v'),('W','w'),('X','x'),('Y','y'),('Z','z')]

def pyCharLower (c : Char) : Char := (asciiPairs.lookup c).getD c

/-- Model of str.lower. -/
def pyLower (s : String) : String := String.mk (s.data.map pyCharLower)

/-- The whitespace characters stripped by str.strip(). -/
def pyIsSpace (c : Char) : Bool :=
  c == ' ' || c == '\t' || c == '\n' || c == '\r' || c == '\x0b' || c == '\x0c'

/-- Drop the elements satisfying p from both ends of a list. -/
def stripList (p : Char → Bool) (l : List Char) : List Char :=
  ((l.dropWhile p).reverse.dropWhile p).reverse

/-- Model of str.strip() (no argument: strips whitespace). -/
def pyStrip (s : String) : String := String.mk (stripList pyIsSpace s.data)

/-- Model of str.strip with a single character argument, as in
path.strip of a slash. -/
def pyStripChar (s : String) (c : Char) : String :=
  String.mk (stripList (· == c) s.data)

/-- Replace every occurrence of pat (leftmost first, non-overlapping)
by rep; fuel-driven so that it is structurally recursive; with fuel at
least the length of the list the result equals str.replace. -/
def replaceFuel (pat rep : List Char) : Nat → List Char → List Char
  | 0, l => l
  | _ + 1, [] => []
  | fuel + 1, c :: cs =>
    if pat ≠ [] ∧ pat.isPrefixOf (c :: cs) then
      rep ++ replaceFuel pat rep fuel ((c :: cs).drop pat.length)
    else
      c :: replaceFuel pat rep fuel cs

/-- Model of str.replace (replaces every occurrence). -/
def pyReplace (s pat rep : String) : String :=
  String.mk (replaceFuel pat.data rep.data s.data.length s.data)

/-- Substring containment test used to model the Python `in` operator
on strings. -/
def listSub (pat : List Char) : List Char → Bool
  | [] => pat.isEmpty
  | c :: cs => pat.isPrefixOf (c :: cs) || listSub pat cs

def containsSubstr (s pat : String) : Bool := listSub pat.data s.data

/-! ### CATEGORY_MAP and normalize_category -/

/-- The CATEGORY_MAP constant of enhance_tools_git.py. -/
def CATEGORY_MAP : List (String × String) :=
  [("termux os", "termux"),
   ("termux_os", "termux"),
   ("wireless_tools", "wireless"),
   ("wireless_testing", "wireless"),
   ("information gathering", "information_gathering"),
   ("password attacks", "password_attack"),
   ("ddos attacks", "ddos"),
   ("maintaining access", "maintaining_access"),
   ("forensics tools", "forensics"),
   ("web server", "web_server"),
   ("web server's", "web_server"),
   ("exploitation tools", "exploitation"),
   ("vulnerability scanner", "vulnerability_scanner"),
   ("ip-tracking tools", "ip_tracking")]

/-- One loop body of normalize_category: c.strip().lower() followed by
CATEGORY_MAP.get(c, c). -/
def normCatElem (s : String) : String :=
  (CATEGORY_MAP.lookup (pyLower (pyStrip s))).getD (pyLower (pyStrip s))

/-- The for-loop of normalize_category over the list case: calling
strip on a non-string element raises AttributeError. -/
def normPyList : PyList → Except PyErr (List String)
  | .nil => .ok []
  | .cons (.vstr s) rest => (normPyList rest).map (fun t => normCatElem s :: t)
  | .cons _ _ => .error .attributeError

/-- normalize_category of enhance_tools_git.py.  A falsy value yields
the sentinel; a string is wrapped into a one-element list; a list is
normalized elementwise and deduplicated (list(set(..)) is modelled by
List.dedup, which keeps one occurrence of each element); iterating a
dict visits its keys, which are strings; any other truthy value is not
iterable and raises TypeError. -/
def normalize_category (cat : PyVal) : Except PyErr (List String) :=
  if cat.truthy = false then .ok ["uncategorized"]
  else
    match cat with
    | .vstr s => .ok [normCatElem s]
    | .vlist l => (normPyList l).map List.dedup
    | .vdict l => .ok ((l.keys.map normCatElem).dedup)
    | _ => .error .typeError

/-! ### parse_repo_info -/

/-- Return the characters after the first occurrence of sep, if sep
occurs in the list. -/
def afterSub (sep : List Char) : List Char → Option (List Char)
  | [] => if sep.isEmpty then some [] else none
  | c :: cs =>
    if sep.isPrefixOf (c :: cs) then some ((c :: cs).drop sep.length)
    else afterSub sep cs

/-- Simplified model of urllib.parse.urlparse, returning the pair of
netloc and path.  A netloc is present after a scheme separator or at a
leading double slash; query and fragment parts are cut off.  This
covers every URL shape the catalog and the claims use. -/
def urlSplit (url : String) : String × String :=
  let defrag := url.data.takeWhile (· ≠ '#')
  let rest? : Option (List Char) :=
    if ("//".data.isPrefixOf defrag) then some (defrag.drop 2)
    else afterSub "://".data defrag
  match rest? with
  | none => ("", String.mk (defrag.takeWhile (· ≠ '?')))
  | some rest =>
    let netloc := rest.takeWhile (fun c => !(c == '/') && !(c == '?'))
    let path := (rest.drop netloc.length).takeWhile (· ≠ '?')
    (String.mk netloc, String.mk path)

def urlNetloc (url : String) : String := (urlSplit url).1

def urlPath (url : String) : String := (urlSplit url).2

/-- parse_repo_info of enhance_tools_git.py.  The argument none models
a missing or null url field; the falsy empty string is also rejected
by the `if not url` guard. -/
def parse_repo_info (url : Option String) : Option String × Option String :=
  match url with
  | none => (none, none)
  | some u =>
    if u = "" then (none, none)
    else
      if containsSubstr (urlNetloc u) "github.com" then
        (some "github", some (pyReplace (pyStripChar (urlPath u) '/') ".git" ""))
      else if containsSubstr (urlNetloc u) "gitlab.com" then
        (some "gitlab",
         some (pyReplace (pyReplace (pyStripChar (urlPath u) '/') ".git" "") "/" "%2F"))
      else (none, none)

/-! ### Network model and retry_request -/

/-- An HTTP response: status code, parsed JSON body (none models a
body that is not valid JSON, so that response.json() raises), and the
X-RateLimit-Remaining header. -/
structure HttpResponse where
  status : Nat
  body : Option PyVal
  rateRemaining : Option String
deriving DecidableEq

/-- The result of one requests.get attempt: either a
requests.RequestException or a response. -/
inductive AttemptOutcome where
  | err
  | resp (r : HttpResponse)
deriving DecidableEq

/-- The queue of attempt outcomes the outside world supplies, consumed
one element per attempt; when it is exhausted every further attempt is
a network error. -/
abbrev Net := List AttemptOutcome

def MAX_RETRIES : Nat := 3

def RATE_LIMIT_WAIT : Nat := 60

/-- Result of retry_request: the returned response (none models the
Python return value None after exhausting retries), the rest of the
outcome queue, the seconds slept between attempts, and the number of
GET attempts performed. -/
structure RetryResult where
  response : Option HttpResponse
  net : Net
  sleeps : List Nat
  attempts : Nat
deriving DecidableEq

/-- The retry loop of retry_request: on each attempt one outcome is
consumed; a response with status 200, 404, 403 or 429 is returned at
once; otherwise (unexpected status or request error) the loop sleeps
wait times 2 to the attempt index and goes on. -/
def retryGo (wait : Nat) : Net → Nat → Nat → RetryResult
  | net, 0, _ => ⟨none, net, [], 0⟩
  | net, fuel + 1, attempt =>
    let step : Option HttpResponse × Net :=
      match net with
      | [] => (none, [])
      | .err :: rest => (none, rest)
      | .resp r :: rest => (some r, rest)
    match step.1 with
    | some r =>
      if r.status = 200 ∨ r.status = 404 ∨ r.status = 403 ∨ r.status = 429 then
        ⟨some r, step.2, [], 1⟩
      else
        let rec1 := retryGo wait step.2 fuel (attempt + 1)
        ⟨rec1.response, rec1.net, wait * 2 ^ attempt :: rec1.sleeps, rec1.attempts + 1⟩
    | none =>
      let rec1 := retryGo wait step.2 fuel (attempt + 1)
      ⟨rec1.response, rec1.net, wait * 2 ^ attempt :: rec1.sleeps, rec1.attempts + 1⟩

/-- retry_request of enhance_tools_git.py (the url, headers and
timeout arguments do not influence the control flow modelled here; the
outcome queue stands for what the network returns). -/
def retry_request (net : Net) (retries : Nat) (wait : Nat) : RetryResult :=
  retryGo wait net retries 0

/-! ### fetch_github_meta and fetch_gitlab_meta -/

/-- The meta dict built by both fetchers; the initial value has every
field None except archived, which is initialized to False. -/
structure Meta where
  stars : PyVal
  forks : PyVal
  license : PyVal
  latest_version : PyVal
  archived : PyVal
deriving DecidableEq

def emptyMeta : Meta :=
  ⟨.vnull, .vnull, .vnull, .vnull, .vbool false⟩

/-- (data.get(k) or {}).get(k2): Python raises AttributeError when the
first lookup yields a truthy value that is not a dict. -/
def orEmptyDictGet (v : PyVal) (k : String) : Except PyErr PyVal :=
  let base := if v.truthy then v else .vdict .dnil
  match base with
  | .vdict l => .ok (l.get k)
  | _ => .error .attributeError

/-- Body of fetch_github_meta after a successful repository request
with a JSON dict body: extract the fields and issue the
releases/latest request. -/
def githubFields (data : PyDict) (net : Net) : Except PyErr (Meta × Net) := do
  let lic ← orEmptyDictGet (data.get "license") "spdx_id"
  let meta : Meta :=
    { stars := data.get "stargazers_count"
      forks := data.get "forks_count"
      license := lic
      latest_version := .vnull
      archived := data.getD "archived" (.vbool false) }
  let rr := retry_request net MAX_RETRIES 2
  match rr.response with
  | some rel =>
    if rel.status = 200 then
      match rel.body with
      | some (PyVal.vdict relData) =>
        .ok ({ meta with latest_version := relData.get "tag_name" }, rr.net)
      | _ => .ok (meta, rr.net)
    else .ok (meta, rr.net)
  | none => .ok (meta, rr.net)

/-- fetch_github_meta, with explicit fuel for the recursive retry on a
rate-limited response; each recursion round consumes at least one
outcome from the queue, so the wrapper below supplies sufficient
fuel. -/
def fetchGithubGo (path : String) : Nat → Net → Except PyErr (Meta × Net)
  | 0, net => .ok (emptyMeta, net)
  | fuel + 1, net =>
    let rr := retry_request net MAX_RETRIES 2
    match rr.response with
    | none => .ok (emptyMeta, rr.net)
    | some r =>
      if r.status = 404 then .ok (emptyMeta, rr.net)
      else if r.status = 403 ∧ r.rateRemaining = some "0" then
        fetchGithubGo path fuel rr.net
      else if r.status ≠ 200 then .ok (emptyMeta, rr.net)
      else
        match r.body with
        | some (PyVal.vdict data) => githubFields data rr.net
        | _ => .ok (emptyMeta, rr.net)

/-- fetch_github_meta of enhance_tools_git.py. -/
def fetch_github_meta (path : String) (net : Net) : Except PyErr (Meta × Net) :=
  fetchGithubGo path (net.length + 1) net

/-- fetch_gitlab_meta, with the same fuel device for the recursive
retry on a 429 response. -/
def fetchGitlabGo (path : String) : Nat → Net → Except PyErr (Meta × Net)
  | 0, net => .ok (emptyMeta, net)
  | fuel + 1, net =>
    let rr := retry_request net MAX_RETRIES 2
    match rr.response with
    | none => .ok (emptyMeta, rr.net)
    | some r =>
      if r.status = 404 then .ok (emptyMeta, rr.net)
      else if r.status = 429 then fetchGitlabGo path fuel rr.net
      else if r.status ≠ 200 then .ok (emptyMeta, rr.net)
      else
        match r.body with
        | some (PyVal.vdict data) => do
          let lic ← orEmptyDictGet (data.get "license") "name"
          .ok ({ stars := data.get "star_count"
                 forks := data.get "forks_count"
                 license := lic
                 latest_version := .vnull
                 archived := data.getD "archived" (.vbool false) }, rr.net)
        | _ => .ok (emptyMeta, rr.net)

/-- fetch_gitlab_meta of enhance_tools_git.py. -/
def fetch_gitlab_meta (path : String) (net : Net) : Except PyErr (Meta × Net) :=
  fetchGitlabGo path (net.length + 1) net

/-! ### enhance_data -/

/-- One catalog entry as read from data.json.  The fields the script
touches are explicit; version, url, stars, forks, license and archived
use none for an absent key; rest carries every remaining key-value
pair untouched. -/
structure Item where
  category : PyVal
  version : Option PyVal
  url : Option String
  stars : Option PyVal
  forks : Option PyVal
  license : Option PyVal
  archived : Option PyVal
  rest : List (String × PyVal)
deriving DecidableEq

/-- The placeholder rewrite: item.get of version with default empty
string, then .lower() (raising AttributeError on a non-string value),
compared against the word latest. -/
def rewriteVersion (item : Item) : Except PyErr Item :=
  match item.version.getD (.vstr "") with
  | .vstr s =>
    .ok (if pyLower s = "latest" then { item with version := some (.vstr "unknown") }
         else item)
  | _ => .error .attributeError

/-- Merging the fetched meta dict into the entry: version is
overwritten only when latest_version is truthy; the four metadata
fields are always written. -/
def applyMeta (item : Item) (meta : Meta) : Item :=
  let it1 :=
    if meta.latest_version.truthy then { item with version := some meta.latest_version }
    else item
  { it1 with
    stars := some meta.stars
    forks := some meta.forks
    license := some meta.license
    archived := some meta.archived }

/-- The loop body of enhance_data for one entry: normalize the
category, rewrite the version placeholder, classify the url and either
dispatch to a fetcher or mark the entry skipped.  The Bool of the
result records whether the entry was skipped. -/
def processItem (item : Item) (net : Net) : Except PyErr (Item × Bool × Net) := do
  let cats ← normalize_category item.category
  let it1 := { item with category := PyVal.vlist (PyList.ofList (cats.map PyVal.vstr)) }
  let it2 ← rewriteVersion it1
  match parse_repo_info it2.url with
  | (some "github", path) => do
    let (meta, net1) ← fetch_github_meta (path.getD "") net
    .ok (applyMeta it2 meta, false, net1)
  | (some "gitlab", path) => do
    let (meta, net1) ← fetch_gitlab_meta (path.getD "") net
    .ok (applyMeta it2 meta, false, net1)
  | _ => .ok (it2, true, net)

/-- enhance_data of enhance_tools_git.py over an in-memory catalog.
On success the first component is the full content written to the
output file and the second lists the keys recorded as skipped; an
error means an uncaught exception aborted the run before anything was
written. -/
def enhance_data : List (String × Item) → Net →
    Except PyErr (List (String × Item) × List String × Net)
  | [], net => .ok ([], [], net)
  | (key, item) :: rest, net => do
    let (item1, skip, net1) ← processItem item net
    let (out, sk, net2) ← enhance_data rest net1
    .ok ((key, item1) :: out, (if skip then [key] else []) ++ sk, net2)

/-! ### core/update_versions.py -/

/-- One catalog entry as seen by update_versions.py: only url and
version are inspected; version uses none for an absent key since the
script indexes it directly. -/
structure UTool where
  url : Option String
  version : Option PyVal
  rest : List (String × PyVal)
deriving DecidableEq

/-- get_latest_version of update_versions.py: a falsy url returns
None; otherwise one GET is performed with no retry and no exception
handling, a network error or invalid JSON propagates; on a 200 the
tag_name field is returned (None when absent), on any other status
None is returned. -/
def get_latest_version (repoUrl : Option String) (net : Net) :
    Except PyErr (PyVal × Net) :=
  match repoUrl with
  | none => .ok (.vnull, net)
  | some u =>
    if u = "" then .ok (.vnull, net)
    else
      match net with
      | [] => .error .requestError
      | .err :: _ => .error .requestError
      | .resp r :: rest =>
        if r.status = 200 then
          match r.body with
          | some (PyVal.vdict data) => .ok (data.get "tag_name", rest)
          | some _ => .error .attributeError
          | none => .error .valueError
        else .ok (.vnull, rest)

/-- The loop body of update_versions.py for one tool: the version is
rewritten exactly when the fetched value is truthy and differs from
the stored one; the Bool records whether this entry changed.  Indexing
a missing version key raises KeyError (only reached when the fetched
value is truthy, by short-circuit evaluation of the and). -/
def updateTool (tool : UTool) (net : Net) : Except PyErr (UTool × Bool × Net) := do
  let (latest, net1) ← get_latest_version tool.url net
  if latest.truthy then
    match tool.version with
    | none => .error .keyError
    | some v =>
      if latest = v then .ok (tool, false, net1)
      else .ok ({ tool with version := some latest }, true, net1)
  else .ok (tool, false, net1)

/-- The main body of update_versions.py over the catalog values: every
tool is visited in order, the updated flag is the disjunction of the
per-entry flags, and the file is written back exactly when that flag
is set. -/
def update_versions : List UTool → Net → Except PyErr (List UTool × Bool × Net)
  | [], net => .ok ([], false, net)
  | t :: ts, net => do
    let (t1, u1, net1) ← updateTool t net
    let (ts1, u2, net2) ← update_versions ts net1
    .ok (t1 :: ts1, u1 || u2, net2)

/-! ### Sample catalog data (from the repository test suite) -/

/-- ToolA of the test suite SAMPLE_DATA: a github url and the version
placeholder latest. -/
def sampleToolA : Item :=
  { category := PyVal.vlist (PyList.ofList [PyVal.vstr "Termux OS"])
    version := some (PyVal.vstr "latest")
    url := some "https://github.com/octocat/Hello-World.git"
    stars := none
    forks := none
    license := none
    archived := none
    rest := [("name", PyVal.vstr "ToolA"), ("package_name", PyVal.vstr "tool-a"),
             ("package_manager", PyVal.vstr "git"),
             ("dependency", PyVal.vlist (PyList.ofList [PyVal.vstr "git"]))] }

/-- ToolB of the test suite SAMPLE_DATA: no url and a null category. -/
def sampleToolB : Item :=
  { category := PyVal.vnull
    version := some (PyVal.vstr "1.0")
    url := none
    stars := none
    forks := none
    license := none
    archived := none
    rest := [("name", PyVal.vstr "ToolB"), ("package_name", PyVal.vstr "tool-b"),
             ("package_manager", PyVal.vstr "git"),
             ("dependency", PyVal.vlist (PyList.ofList [PyVal.vstr "python", PyVal.vstr "git"]))] }

/-- What enhance_data produces for ToolA when every request fails (the
empty outcome queue): category normalized, the placeholder rewritten
to unknown and the metadata fields set from the empty meta record. -/
def enrichedToolA : Item :=
  { category := PyVal.vlist (PyList.ofList [PyVal.vstr "termux"])
    version := some (PyVal.vstr "unknown")
    url := some "https://github.com/octocat/Hello-World.git"
    stars := some PyVal.vnull
    forks := some PyVal.vnull
    license := some PyVal.vnull
    archived := some (PyVal.vbool false)
    rest := sampleToolA.rest }

/-- What enhance_data produces for ToolB: passed through except that
the category has been normalized to the sentinel list. -/
def passedToolB : Item :=
  { sampleToolB with category := PyVal.vlist (PyList.ofList [PyVal.vstr "uncategorized"]) }

/-! ### C4: URL classification -/

/-- C4 counterexample: the claim states that for a GitHub URL only
leading and trailing slashes and a trailing .git suffix are removed
from the path and nothing else is altered.  The code calls str.replace
and so removes every occurrence of .git: the path user/my.gitrepo has
no .git suffix yet comes out as user/myrepo. -/
theorem parse_repo_info_git_suffix_cex :
    parse_repo_info (some "https://github.com/user/my.gitrepo")
      = (some "github", some "user/myrepo")
    ∧ ("user/myrepo" : String) ≠ "user/my.gitrepo" :=
  ⟨by decide, by decide⟩

/-- C4 (amended): parse_repo_info maps the two example URLs as the
claim states; a missing URL or a URL whose netloc matches neither host
yields (None, None); and for a matching netloc the returned path is
the URL path with leading and trailing slashes stripped and every
occurrence of .git removed (percent-encoding the separators for
GitLab), rather than only a trailing .git suffix. -/
theorem parse_repo_info_spec :
    parse_repo_info (some "https://github.com/user/repo.git")
      = (some "github", some "user/repo")
  ∧ parse_repo_info (some "https://gitlab.com/group/project.git")
      = (some "gitlab", some "group%2Fproject")
  ∧ parse_repo_info none = (none, none)
  ∧ (∀ u, containsSubstr (urlNetloc u) "github.com" = false →
        containsSubstr (urlNetloc u) "gitlab.com" = false →
        parse_repo_info (some u) = (none, none))
  ∧ (∀ u, containsSubstr (urlNetloc u) "github.com" = true →
        parse_repo_info (some u)
          = (some "github", some (pyReplace (pyStripChar (urlPath u) '/') ".git" "")))
  ∧ (∀ u, containsSubstr (urlNetloc u) "gitlab.com" = true →
        containsSubstr (urlNetloc u) "github.com" = false →
        parse_repo_info (some u)
          = (some "gitlab",
             some (pyReplace (pyReplace (pyStripChar (urlPath u) '/') ".git" "") "/" "%2F"))) := by
  refine ⟨by decide, by decide, rfl, ?_, ?_, ?_⟩
  · intro u h1 h2
    by_cases hu : u = ""
    · subst hu; rfl
    · simp [parse_repo_info, hu, h1, h2]
  · intro u h1
    by_cases hu : u = ""
    · subst hu; exact absurd h1 (by decide)
    · simp [parse_repo_info, hu, h1]
  · intro u h1 h2
    by_cases hu : u = ""
    · subst hu; exact absurd h1 (by decide)
    · simp [parse_repo_info, hu, h1, h2]

/-- Witness for parse_repo_info_spec at concrete inputs. -/
theorem parse_repo_info_spec_witness :
    parse_repo_info (some "https://example.com/something") = (none, none)
    ∧ parse_repo_info (some "https://gist.github.com/u/g")
        = (some "github",
           some (pyReplace (pyStripChar (urlPath "https://gist.github.com/u/g") '/') ".git" "")) :=
  ⟨parse_repo_info_spec.2.2.2.1 "https://example.com/something" (by decide) (by decide),
   parse_repo_info_spec.2.2.2.2.1 "https://gist.github.com/u/g" (by decide)⟩

/-! ### C10: platform detection is substring containment, github first -/

/-- C10: platform detection is substring containment on the netloc,
checked github before gitlab: any netloc containing github.com
anywhere (including gist.github.com and notgithub.com) yields the
github platform, and a netloc containing gitlab.com but not github.com
yields gitlab. -/
theorem parse_repo_info_platform_containment :
    (∀ u, containsSubstr (urlNetloc u) "github.com" = true →
        (parse_repo_info (some u)).1 = some "github")
  ∧ (∀ u, containsSubstr (urlNetloc u) "gitlab.com" = true →
        containsSubstr (urlNetloc u) "github.com" = false →
        (parse_repo_info (some u)).1 = some "gitlab")
  ∧ (parse_repo_info (some "https://gist.github.com/u/g")).1 = some "github"
  ∧ (parse_repo_info (some "https://notgithub.com/a/b")).1 = some "github" := by
  refine ⟨?_, ?_, by decide, by decide⟩
  · intro u h1
    by_cases hu : u = ""
    · subst hu; exact absurd h1 (by decide)
    · simp [parse_repo_info, hu, h1]
  · intro u h1 h2
    by_cases hu : u = ""
    · subst hu; exact absurd h1 (by decide)
    · simp [parse_repo_info, hu, h1, h2]

/-- Witness for parse_repo_info_platform_containment. -/
theorem parse_repo_info_platform_containment_witness :
    (parse_repo_info (some "https://notgithub.com/a/b")).1 = some "github"
    ∧ (parse_repo_info (some "https://gitlab.com/g/p")).1 = some "gitlab" :=
  ⟨parse_repo_info_platform_containment.1 "https://notgithub.com/a/b" (by decide),
   parse_repo_info_platform_containment.2.1 "https://gitlab.com/g/p" (by decide) (by decide)⟩

/-! ### Helper lemmas on the per-entry pipeline -/

/-- The placeholder rewrite touches only the version field. -/
theorem rewriteVersion_fields {i j : Item} (h : rewriteVersion i = Except.ok j) :
    j.category = i.category ∧ j.url = i.url ∧ j.stars = i.stars ∧ j.forks = i.forks
    ∧ j.license = i.license ∧ j.archived = i.archived ∧ j.rest = i.rest := by
  unfold rewriteVersion at h
  split at h
  · injection h with h
    subst h
    split <;> simp
  · exact Except.noConfusion h

/-- The placeholder rewrite succeeds on an absent or string version. -/
theorem rewriteVersion_total {i : Item}
    (h : i.version = none ∨ ∃ s, i.version = some (PyVal.vstr s)) :
    ∃ j, rewriteVersion i = Except.ok j := by
  rcases h with h | ⟨s, h⟩
  · exact ⟨i, by unfold rewriteVersion; rw [h]; rfl⟩
  · exact ⟨if pyLower s = "latest" then { i with version := some (.vstr "unknown") } else i,
      by unfold rewriteVersion; rw [h]; rfl⟩

/-- With an exhausted outcome queue (every attempt a network error),
fetch_github_meta degrades to the empty meta record. -/
theorem fetch_github_meta_empty_net (path : String) :
    fetch_github_meta path [] = .ok (emptyMeta, []) := rfl

/-- With an exhausted outcome queue, fetch_gitlab_meta degrades to the
empty meta record. -/
theorem fetch_gitlab_meta_empty_net (path : String) :
    fetch_gitlab_meta path [] = .ok (emptyMeta, []) := rfl

/-! ### C2: metadata fetch degradation -/

/-- C2 counterexample: the claim states that on a 404 every field of
the returned record, archived included, is unset/None.  The code
initializes archived to False, not None, and the 404 path returns that
record: archived is False. -/
theorem fetch_meta_404_archived_cex :
    fetch_github_meta "user/repo" [AttemptOutcome.resp ⟨404, none, none⟩]
      = .ok (emptyMeta, [])
    ∧ emptyMeta.archived ≠ PyVal.vnull :=
  ⟨by decide, by decide⟩

/-- C2 (amended): on every failure path reachable for the repository
request (404, exhausted retries, the other non-200 statuses the retry
primitive can return, and a malformed JSON body) both fetchers return,
without raising, the initial meta record in which stars, forks,
license and latest_version are None and archived is False. -/
theorem fetch_meta_failure_degradation :
    emptyMeta.stars = PyVal.vnull
  ∧ emptyMeta.forks = PyVal.vnull
  ∧ emptyMeta.license = PyVal.vnull
  ∧ emptyMeta.latest_version = PyVal.vnull
  ∧ emptyMeta.archived = PyVal.vbool false
  ∧ (∀ path r rest, r.status = 404 →
       fetch_github_meta path (.resp r :: rest) = .ok (emptyMeta, rest))
  ∧ (∀ path, fetch_github_meta path [] = .ok (emptyMeta, []))
  ∧ (∀ path r rest, r.status = 429 →
       fetch_github_meta path (.resp r :: rest) = .ok (emptyMeta, rest))
  ∧ (∀ path r rest, r.status = 403 → r.rateRemaining ≠ some "0" →
       fetch_github_meta path (.resp r :: rest) = .ok (emptyMeta, rest))
  ∧ (∀ path r rest, r.status = 200 → r.body = none →
       fetch_github_meta path (.resp r :: rest) = .ok (emptyMeta, rest))
  ∧ (∀ path r rest, r.status = 404 →
       fetch_gitlab_meta path (.resp r :: rest) = .ok (emptyMeta, rest))
  ∧ (∀ path, fetch_gitlab_meta path [] = .ok (emptyMeta, []))
  ∧ (∀ path r rest, r.status = 403 →
       fetch_gitlab_meta path (.resp r :: rest) = .ok (emptyMeta, rest))
  ∧ (∀ path r rest, r.status = 200 → r.body = none →
       fetch_gitlab_meta path (.resp r :: rest) = .ok (emptyMeta, rest)) := by
  refine ⟨rfl, rfl, rfl, rfl, rfl, ?_, ?_, ?_, ?_, ?_, ?_, ?_, ?_, ?_⟩
  · intro path r rest h
    simp [fetch_github_meta, fetchGithubGo, retry_request, retryGo, h]
  · intro path
    exact fetch_github_meta_empty_net path
  · intro path r rest h
    simp [fetch_github_meta, fetchGithubGo, retry_request, retryGo, h]
  · intro path r rest h h2
    simp [fetch_github_meta, fetchGithubGo, retry_request, retryGo, h, h2]
  · intro path r rest h h2
    simp [fetch_github_meta, fetchGithubGo, retry_request, retryGo, h, h2]
  · intro path r rest h
    simp [fetch_gitlab_meta, fetchGitlabGo, retry_request, retryGo, h]
  · intro path
    exact fetch_gitlab_meta_empty_net path
  · intro path r rest h
    simp [fetch_gitlab_meta, fetchGitlabGo, retry_request, retryGo, h]
  · intro path r rest h h2
    simp [fetch_gitlab_meta, fetchGitlabGo, retry_request, retryGo, h, h2]

/-- Witness for fetch_meta_failure_degradation at concrete failing
responses. -/
theorem fetch_meta_failure_degradation_witness :
    fetch_github_meta "u/r" [.resp ⟨404, none, none⟩] = .ok (emptyMeta, [])
    ∧ fetch_gitlab_meta "g%2Fp" [.resp ⟨200, none, none⟩] = .ok (emptyMeta, []) :=
  ⟨fetch_meta_failure_degradation.2.2.2.2.2.1 "u/r" ⟨404, none, none⟩ [] rfl,
   fetch_meta_failure_degradation.2.2.2.2.2.2.2.2.2.2.2.2.2 "g%2Fp" ⟨200, none, none⟩ [] rfl rfl⟩

/-! ### C1: skipped entries -/

/-- C1 counterexample: in the two-entry sample catalog the entry
without a URL is recorded as skipped, yet the claim that it appears in
the output with every field equal to its input value fails: its
category has been normalized from None to the sentinel list before the
skip check. -/
theorem enhance_skipped_modified_cex :
    enhance_data [("ToolA", sampleToolA), ("ToolB", sampleToolB)] []
      = .ok ([("ToolA", enrichedToolA), ("ToolB", passedToolB)], ["ToolB"], [])
    ∧ passedToolB ≠ sampleToolB :=
  ⟨by decide, by decide⟩

/-- C1 (amended): an entry whose URL is missing or unrecognized is
recorded as skipped and kept in the output, with its category
normalized and its latest placeholder version rewritten (as happens to
every entry before the skip check) and every other field - url, stars,
forks, license, archived and all remaining keys - equal to its input
value; in the two-entry sample catalog the skip count is 1 and the
skipped entry differs from its input only in the normalized
category. -/
theorem enhance_skip_passthrough :
    (∀ item net cats it2, normalize_category item.category = .ok cats →
        rewriteVersion
          { item with category := PyVal.vlist (PyList.ofList (cats.map PyVal.vstr)) }
          = .ok it2 →
        (parse_repo_info item.url).1 = none →
        processItem item net = .ok (it2, true, net)
        ∧ it2.url = item.url ∧ it2.stars = item.stars ∧ it2.forks = item.forks
        ∧ it2.license = item.license ∧ it2.archived = item.archived
        ∧ it2.rest = item.rest)
  ∧ enhance_data [("ToolA", sampleToolA), ("ToolB", sampleToolB)] []
      = .ok ([("ToolA", enrichedToolA), ("ToolB", passedToolB)], ["ToolB"], [])
  ∧ (["ToolB"] : List String).length = 1
  ∧ passedToolB
      = { sampleToolB with
          category := PyVal.vlist (PyList.ofList [PyVal.vstr "uncategorized"]) } := by
  refine ⟨?_, by decide, rfl, rfl⟩
  intro item net cats it2 h1 h2 h3
  have hf := rewriteVersion_fields h2
  have hurl : it2.url = item.url := by
    have := hf.2.1
    simpa using this
  constructor
  · show (do
      let cats ← normalize_category item.category
      let it1 := { item with category := PyVal.vlist (PyList.ofList (cats.map PyVal.vstr)) }
      let it2 ← rewriteVersion it1
      match parse_repo_info it2.url with
      | (some "github", path) => do
        let (meta, net1) ← fetch_github_meta (path.getD "") net
        Except.ok (applyMeta it2 meta, false, net1)
      | (some "gitlab", path) => do
        let (meta, net1) ← fetch_gitlab_meta (path.getD "") net
        Except.ok (applyMeta it2 meta, false, net1)
      | _ => Except.ok (it2, true, net)) = Except.ok (it2, true, net)
    rw [h1]
    show (do
      let it2 ← rewriteVersion
        { item with category := PyVal.vlist (PyList.ofList (cats.map PyVal.vstr)) }
      match parse_repo_info it2.url with
      | (some "github", path) => do
        let (meta, net1) ← fetch_github_meta (path.getD "") net
        Except.ok (applyMeta it2 meta, false, net1)
      | (some "gitlab", path) => do
        let (meta, net1) ← fetch_gitlab_meta (path.getD "") net
        Except.ok (applyMeta it2 meta, false, net1)
      | _ => Except.ok (it2, true, net)) = Except.ok (it2, true, net)
    rw [h2]
    show (match parse_repo_info it2.url with
      | (some "github", path) => do
        let (meta, net1) ← fetch_github_meta (path.getD "") net
        Except.ok (applyMeta it2 meta, false, net1)
      | (some "gitlab", path) => do
        let (meta, net1) ← fetch_gitlab_meta (path.getD "") net
        Except.ok (applyMeta it2 meta, false, net1)
      | _ => Except.ok (it2, true, net)) = Except.ok (it2, true, net)
    rw [hurl]
    rcases hp : parse_repo_info item.url with ⟨a, b⟩
    rw [hp] at h3
    simp at h3
    subst h3
    rfl
  · exact ⟨hurl, hf.2.2.1, hf.2.2.2.1, hf.2.2.2.2.1, hf.2.2.2.2.2.1, hf.2.2.2.2.2.2⟩

/-- Witness for enhance_skip_passthrough at the no-URL sample
entry. -/
theorem enhance_skip_passthrough_witness :
    processItem sampleToolB [] = .ok (passedToolB, true, [])
    ∧ passedToolB.url = sampleToolB.url :=
  have h := enhance_skip_passthrough.1 sampleToolB [] ["uncategorized"] passedToolB
    (by decide) (by decide) (by decide)
  ⟨h.1, h.2.1⟩

/-- Reduction of the Except monad bind over a success value. -/
@[simp] theorem exceptOkBind {ε α β : Type} (a : α) (f : α → Except ε β) :
    ((Except.ok a : Except ε α) >>= f) = f a := rfl

/-! ### C3: no single entry can abort the run -/

/-- C3 counterexample: an entry whose category is a number makes
normalize_category raise TypeError, and an entry whose version is a
number makes the placeholder rewrite raise AttributeError; in both
cases enhance_data aborts with the exception (the second catalog also
shows the following entry is never processed), contradicting the claim
that a malformed entry never aborts the run. -/
theorem enhance_malformed_aborts_cex :
    enhance_data [("Bad", { sampleToolB with category := PyVal.vint 5 })] []
      = .error .typeError
    ∧ enhance_data [("Bad", { sampleToolB with version := some (PyVal.vint 1) }),
                    ("ToolB", sampleToolB)] []
      = .error .attributeError :=
  ⟨by decide, by decide⟩

/-- C3 (amended): fetch failures never abort the run - with every
request failing (the exhausted outcome queue) enhance_data still
processes every entry and produces the full output - but an entry with
malformed data (a category value that raises in normalize_category, or
a version value that is present and not a string) raises and aborts
the whole run before the output file is written. -/
theorem enhance_data_total_unless_malformed :
    ∀ cat : List (String × Item),
      (∀ p ∈ cat, (∃ cs, normalize_category p.2.category = Except.ok cs)
          ∧ (p.2.version = none ∨ ∃ s, p.2.version = some (PyVal.vstr s))) →
      ∃ out sk, enhance_data cat [] = .ok (out, sk, [])
        ∧ out.map Prod.fst = cat.map Prod.fst := by
  intro cat h
  induction cat with
  | nil => exact ⟨[], [], rfl, rfl⟩
  | cons p rest ih =>
    obtain ⟨⟨cs, hcs⟩, hv⟩ := h p (by simp)
    obtain ⟨out, sk, hout, hkeys⟩ := ih (fun q hq => h q (by simp [hq]))
    obtain ⟨j, hj⟩ := rewriteVersion_total
      (i := { p.2 with category := PyVal.vlist (PyList.ofList (cs.map PyVal.vstr)) })
      (by simpa using hv)
    have hproc : ∃ it1 skip, processItem p.2 [] = .ok (it1, skip, []) := by
      simp only [processItem, hcs, hj, exceptOkBind]
      split
      next path heq =>
        rw [fetch_github_meta_empty_net]
        exact ⟨applyMeta j emptyMeta, false, rfl⟩
      next path heq =>
        rw [fetch_gitlab_meta_empty_net]
        exact ⟨applyMeta j emptyMeta, false, rfl⟩
      next =>
        exact ⟨j, true, rfl⟩
    obtain ⟨it1, skip, hit⟩ := hproc
    rcases p with ⟨k, item⟩
    refine ⟨(k, it1) :: out, (if skip then [k] else []) ++ sk, ?_, by simp [hkeys]⟩
    show (do
      let (item1, skip, net1) ← processItem item []
      let (out, sk, net2) ← enhance_data rest net1
      Except.ok ((k, item1) :: out, (if skip then [k] else []) ++ sk, net2))
      = Except.ok ((k, it1) :: out, (if skip then [k] else []) ++ sk, [])
    rw [hit]
    simp only [exceptOkBind]
    rw [hout]
    rfl

/-- Witness for enhance_data_total_unless_malformed on the sample
catalog. -/
theorem enhance_data_total_unless_malformed_witness :
    ∃ out sk, enhance_data [("ToolA", sampleToolA), ("ToolB", sampleToolB)] []
        = .ok (out, sk, [])
      ∧ out.map Prod.fst = ["ToolA", "ToolB"] :=
  enhance_data_total_unless_malformed
    [("ToolA", sampleToolA), ("ToolB", sampleToolB)]
    (by
      intro p hp
      simp only [List.mem_cons, List.not_mem_nil, or_false] at hp
      rcases hp with rfl | rfl
      · exact ⟨⟨["termux"], by decide⟩, Or.inr ⟨"latest", by decide⟩⟩
      · exact ⟨⟨["uncategorized"], by decide⟩, Or.inr ⟨"1.0", by decide⟩⟩)

/-- Shifting a doubling-backoff schedule by one attempt. -/
theorem rangeMapShift (wait a n : Nat) :
    wait * 2 ^ a :: (List.range n).map (fun i => wait * 2 ^ (a + 1 + i))
      = (List.range (n + 1)).map (fun i => wait * 2 ^ (a + i)) := by
  rw [List.range_succ_eq_map, List.map_cons, List.map_map]
  refine congrArg₂ _ (by simp) ?_
  apply List.map_congr_left
  intro i _
  have h : a + 1 + i = a + (i + 1) := by omega
  simp [Function.comp, h]

/-- Invariant of the retry loop: the attempt count is bounded by the
remaining retries; when no terminal response arrives every attempt is
used and each failed attempt sleeps wait times 2 to its index; when a
terminal response arrives its status is one of 200, 404, 403, 429 and
exactly the failed attempts before it slept. -/
theorem retryGo_spec (wait : Nat) :
    ∀ fuel net a,
      (retryGo wait net fuel a).attempts ≤ fuel
      ∧ ((retryGo wait net fuel a).response = none →
           (retryGo wait net fuel a).attempts = fuel
           ∧ (retryGo wait net fuel a).sleeps
               = (List.range fuel).map (fun i => wait * 2 ^ (a + i)))
      ∧ (∀ r, (retryGo wait net fuel a).response = some r →
           (r.status = 200 ∨ r.status = 404 ∨ r.status = 403 ∨ r.status = 429)
           ∧ 1 ≤ (retryGo wait net fuel a).attempts
           ∧ (retryGo wait net fuel a).sleeps
               = (List.range ((retryGo wait net fuel a).attempts - 1)).map
                   (fun i => wait * 2 ^ (a + i))) := by
  intro fuel
  induction fuel with
  | zero =>
    intro net a
    refine ⟨Nat.le_refl 0, fun _ => ⟨rfl, rfl⟩, fun r hr => ?_⟩
    exact absurd hr (by simp [retryGo])
  | succ fuel ih =>
    intro net a
    match net with
    | [] =>
      obtain ⟨hle, hnone, hsome⟩ := ih [] (a + 1)
      simp only [retryGo]
      refine ⟨by omega, ?_, ?_⟩
      · intro hn
        obtain ⟨h21, h22⟩ := hnone hn
        refine ⟨by omega, ?_⟩
        rw [h22, rangeMapShift]
      · intro r hr
        obtain ⟨hs, h1, hsl⟩ := hsome r hr
        refine ⟨hs, by omega, ?_⟩
        have he : (retryGo wait [] fuel (a + 1)).attempts + 1 - 1
            = ((retryGo wait [] fuel (a + 1)).attempts - 1) + 1 := by omega
        rw [hsl, he, ← rangeMapShift]
    | .err :: rest =>
      obtain ⟨hle, hnone, hsome⟩ := ih rest (a + 1)
      simp only [retryGo]
      refine ⟨by omega, ?_, ?_⟩
      · intro hn
        obtain ⟨h21, h22⟩ := hnone hn
        refine ⟨by omega, ?_⟩
        rw [h22, rangeMapShift]
      · intro r hr
        obtain ⟨hs, h1, hsl⟩ := hsome r hr
        refine ⟨hs, by omega, ?_⟩
        have he : (retryGo wait rest fuel (a + 1)).attempts + 1 - 1
            = ((retryGo wait rest fuel (a + 1)).attempts - 1) + 1 := by omega
        rw [hsl, he, ← rangeMapShift]
    | .resp r0 :: rest =>
      by_cases hterm : r0.status = 200 ∨ r0.status = 404 ∨ r0.status = 403 ∨ r0.status = 429
      · simp only [retryGo, hterm, if_true]
        refine ⟨by omega, by intro hn; exact absurd hn (by simp), ?_⟩
        intro r hr
        simp at hr
        subst hr
        exact ⟨hterm, by omega, by simp⟩
      · simp only [retryGo, hterm, if_false]
        obtain ⟨hle, hnone, hsome⟩ := ih rest (a + 1)
        refine ⟨by omega, ?_, ?_⟩
        · intro hn
          obtain ⟨h21, h22⟩ := hnone hn
          refine ⟨by omega, ?_⟩
          rw [h22, rangeMapShift]
        · intro r hr
          obtain ⟨hs, h1, hsl⟩ := hsome r hr
          refine ⟨hs, by omega, ?_⟩
          have he : (retryGo wait rest fuel (a + 1)).attempts + 1 - 1
              = ((retryGo wait rest fuel (a + 1)).attempts - 1) + 1 := by omega
          rw [hsl, he, ← rangeMapShift]

/-! ### C7: retry_request behavior -/

/-- C7: retry_request attempts the GET at most MAX_RETRIES (3) times;
a response whose status is one of 200, 404, 403, 429 is returned
immediately (the first outcome being such a response gives exactly one
attempt, no sleep and the rest of the queue untouched); every failed
attempt sleeps wait times 2 to the attempt index, the base delay
doubling each attempt; and when every attempt fails the result is
None after the full backoff schedule 2, 4, 8. -/
theorem retry_request_spec :
    (∀ net, (retry_request net MAX_RETRIES 2).attempts ≤ MAX_RETRIES)
  ∧ (∀ r rest, (r.status = 200 ∨ r.status = 404 ∨ r.status = 403 ∨ r.status = 429) →
       retry_request (AttemptOutcome.resp r :: rest) MAX_RETRIES 2
         = ⟨some r, rest, [], 1⟩)
  ∧ (∀ net r, (retry_request net MAX_RETRIES 2).response = some r →
       (r.status = 200 ∨ r.status = 404 ∨ r.status = 403 ∨ r.status = 429)
       ∧ (retry_request net MAX_RETRIES 2).sleeps
           = (List.range ((retry_request net MAX_RETRIES 2).attempts - 1)).map
               (fun i => 2 * 2 ^ i))
  ∧ (∀ net, (retry_request net MAX_RETRIES 2).response = none →
       (retry_request net MAX_RETRIES 2).attempts = MAX_RETRIES
       ∧ (retry_request net MAX_RETRIES 2).sleeps = [2, 4, 8]) := by
  refine ⟨?_, ?_, ?_, ?_⟩
  · intro net
    exact (retryGo_spec 2 MAX_RETRIES net 0).1
  · intro r rest hterm
    simp [retry_request, MAX_RETRIES, retryGo, hterm]
  · intro net r hr
    unfold retry_request at hr ⊢
    obtain ⟨hs, h1, hsl⟩ := (retryGo_spec 2 MAX_RETRIES net 0).2.2 r hr
    refine ⟨hs, ?_⟩
    rw [hsl]
    simp
  · intro net hn
    unfold retry_request at hn ⊢
    obtain ⟨h1, h2⟩ := (retryGo_spec 2 MAX_RETRIES net 0).2.1 hn
    refine ⟨h1, ?_⟩
    rw [h2]
    decide

/-- Witness for retry_request_spec: a queue with a network error, an
unexpected status and finally a 200. -/
theorem retry_request_spec_witness :
    (retry_request [.err, .resp ⟨500, none, none⟩, .resp ⟨200, none, none⟩]
        MAX_RETRIES 2).attempts ≤ MAX_RETRIES
    ∧ retry_request [.resp ⟨404, none, none⟩] MAX_RETRIES 2
        = ⟨some ⟨404, none, none⟩, [], [], 1⟩
    ∧ ((⟨404, none, none⟩ : HttpResponse).status = 200
        ∨ (⟨404, none, none⟩ : HttpResponse).status = 404
        ∨ (⟨404, none, none⟩ : HttpResponse).status = 403
        ∨ (⟨404, none, none⟩ : HttpResponse).status = 429)
    ∧ (retry_request ([] : Net) MAX_RETRIES 2).attempts = MAX_RETRIES
    ∧ (retry_request ([] : Net) MAX_RETRIES 2).sleeps = [2, 4, 8] :=
  have h4 := retry_request_spec.2.2.2 [] rfl
  ⟨retry_request_spec.1 [.err, .resp ⟨500, none, none⟩, .resp ⟨200, none, none⟩],
   retry_request_spec.2.1 ⟨404, none, none⟩ [] (by decide),
   by decide, h4.1, h4.2⟩

/-! ### C8: version placeholder rewrite and overwrite condition -/

/-- C8: for an entry dispatched to a fetcher (url classified github or
gitlab) whose version field holds a string: a version equal to latest
case-insensitively is first rewritten to unknown, and the version is
then overwritten with the fetched latest_version exactly when that
value is truthy; otherwise the (possibly rewritten) prior value is
kept. -/
theorem enhance_version_overwrite :
    ∀ item net s cats,
      item.version = some (PyVal.vstr s) →
      normalize_category item.category = .ok cats →
      (∀ path meta net1,
         parse_repo_info item.url = (some "github", path) →
         fetch_github_meta (path.getD "") net = .ok (meta, net1) →
         ∃ it3, processItem item net = .ok (it3, false, net1)
           ∧ it3.version = (if meta.latest_version.truthy then some meta.latest_version
               else some (.vstr (if pyLower s = "latest" then "unknown" else s))))
      ∧ (∀ path meta net1,
         parse_repo_info item.url = (some "gitlab", path) →
         fetch_gitlab_meta (path.getD "") net = .ok (meta, net1) →
         ∃ it3, processItem item net = .ok (it3, false, net1)
           ∧ it3.version = (if meta.latest_version.truthy then some meta.latest_version
               else some (.vstr (if pyLower s = "latest" then "unknown" else s)))) := by
  intro item net s cats hv hcats
  set it1 : Item :=
    { item with category := PyVal.vlist (PyList.ofList (cats.map PyVal.vstr)) } with hit1
  have hv1 : it1.version = some (PyVal.vstr s) := by simp [hit1, hv]
  constructor
  · intro path meta net1 hp hf
    by_cases hl : pyLower s = "latest"
    · have hrw : rewriteVersion it1 = .ok { it1 with version := some (.vstr "unknown") } := by
        unfold rewriteVersion
        rw [hv1]
        simp [hl]
      simp only [processItem, hcats, exceptOkBind, hrw]
      have hurl : ({ it1 with version := some (.vstr "unknown") } : Item).url = item.url := by
        simp [hit1]
      rw [hurl, hp]
      show ∃ it3,
        (do
          let (meta, net1) ← fetch_github_meta (path.getD "") net
          Except.ok (applyMeta { it1 with version := some (.vstr "unknown") } meta, false, net1))
          = Except.ok (it3, false, net1)
        ∧ it3.version = (if meta.latest_version.truthy then some meta.latest_version
            else some (.vstr (if pyLower s = "latest" then "unknown" else s)))
      rw [hf]
      simp only [exceptOkBind]
      refine ⟨applyMeta { it1 with version := some (.vstr "unknown") } meta, rfl, ?_⟩
      simp [applyMeta, hl]
      split <;> simp
    · have hrw : rewriteVersion it1 = .ok it1 := by
        unfold rewriteVersion
        rw [hv1]
        simp [hl]
      simp only [processItem, hcats, exceptOkBind, hrw]
      have hurl : it1.url = item.url := by simp [hit1]
      rw [hurl, hp]
      show ∃ it3,
        (do
          let (meta, net1) ← fetch_github_meta (path.getD "") net
          Except.ok (applyMeta it1 meta, false, net1))
          = Except.ok (it3, false, net1)
        ∧ it3.version = (if meta.latest_version.truthy then some meta.latest_version
            else some (.vstr (if pyLower s = "latest" then "unknown" else s)))
      rw [hf]
      simp only [exceptOkBind]
      refine ⟨applyMeta it1 meta, rfl, ?_⟩
      simp [applyMeta, hl]
      split <;> simp [hv1, hv]
  · intro path meta net1 hp hf
    by_cases hl : pyLower s = "latest"
    · have hrw : rewriteVersion it1 = .ok { it1 with version := some (.vstr "unknown") } := by
        unfold rewriteVersion
        rw [hv1]
        simp [hl]
      simp only [processItem, hcats, exceptOkBind, hrw]
      have hurl : ({ it1 with version := some (.vstr "unknown") } : Item).url = item.url := by
        simp [hit1]
      rw [hurl, hp]
      show ∃ it3,
        (do
          let (meta, net1) ← fetch_gitlab_meta (path.getD "") net
          Except.ok (applyMeta { it1 with version := some (.vstr "unknown") } meta, false, net1))
          = Except.ok (it3, false, net1)
        ∧ it3.version = (if meta.latest_version.truthy then some meta.latest_version
            else some (.vstr (if pyLower s = "latest" then "unknown" else s)))
      rw [hf]
      simp only [exceptOkBind]
      refine ⟨applyMeta { it1 with version := some (.vstr "unknown") } meta, rfl, ?_⟩
      simp [applyMeta, hl]
      split <;> simp
    · have hrw : rewriteVersion it1 = .ok it1 := by
        unfold rewriteVersion
        rw [hv1]
        simp [hl]
      simp only [processItem, hcats, exceptOkBind, hrw]
      have hurl : it1.url = item.url := by simp [hit1]
      rw [hurl, hp]
      show ∃ it3,
        (do
          let (meta, net1) ← fetch_gitlab_meta (path.getD "") net
          Except.ok (applyMeta it1 meta, false, net1))
          = Except.ok (it3, false, net1)
        ∧ it3.version = (if meta.latest_version.truthy then some meta.latest_version
            else some (.vstr (if pyLower s = "latest" then "unknown" else s)))
      rw [hf]
      simp only [exceptOkBind]
      refine ⟨applyMeta it1 meta, rfl, ?_⟩
      simp [applyMeta, hl]
      split <;> simp [hv1, hv]

/-- Witness for enhance_version_overwrite: the sample github entry
with version latest, fetched against an empty queue (no latest tag
found), keeps the rewritten placeholder unknown. -/
theorem enhance_version_overwrite_witness :
    ∃ it3, processItem sampleToolA [] = .ok (it3, false, [])
      ∧ it3.version = (if emptyMeta.latest_version.truthy then some emptyMeta.latest_version
          else some (.vstr (if pyLower "latest" = "latest" then "unknown" else "latest"))) :=
  (enhance_version_overwrite sampleToolA [] "latest" ["termux"] (by decide) (by decide)).1
    (some "octocat/Hello-World") emptyMeta [] (by decide) (by decide)

/-! ### C9: the sibling version-checking routine -/

/-- Per-entry behavior of the update_versions loop: the changed flag
is set exactly when the version field actually changed; an unchanged
entry is returned as is; and the new version is the fetched tag
exactly when that tag is truthy and differs from the stored value. -/
theorem updateTool_spec :
    ∀ tool net t1 u net1, updateTool tool net = .ok (t1, u, net1) →
      (u = true ↔ t1.version ≠ tool.version)
      ∧ (u = false → t1 = tool)
      ∧ (∀ latest netg, get_latest_version tool.url net = .ok (latest, netg) →
          t1.version = (if latest.truthy = true ∧ tool.version ≠ some latest
                        then some latest else tool.version)
          ∧ net1 = netg) := by
  intro tool net t1 u net1 h
  unfold updateTool at h
  cases hg : get_latest_version tool.url net with
  | error e =>
    rw [hg] at h
    exact Except.noConfusion h
  | ok p =>
    rcases p with ⟨latest, netg⟩
    rw [hg] at h
    simp only [exceptOkBind] at h
    split at h
    next ht =>
      split at h
      next hv => exact Except.noConfusion h
      next v hv =>
        split at h
        next he =>
          injection h with h
          rw [Prod.mk.injEq, Prod.mk.injEq] at h
          obtain ⟨h1, h2, h3⟩ := h
          subst h1 h2 h3
          subst he
          refine ⟨by simp [hv], fun _ => rfl, ?_⟩
          intro l2 n2 hg2
          rw [Except.ok.injEq, Prod.mk.injEq] at hg2
          obtain ⟨hg3, hg4⟩ := hg2
          subst hg3 hg4
          rw [hv]
          simp
        next he =>
          injection h with h
          rw [Prod.mk.injEq, Prod.mk.injEq] at h
          obtain ⟨h1, h2, h3⟩ := h
          subst h1 h2 h3
          refine ⟨?_, by simp, ?_⟩
          · simp [hv]
            intro hcon
            exact he hcon
          · intro l2 n2 hg2
            rw [Except.ok.injEq, Prod.mk.injEq] at hg2
            obtain ⟨hg3, hg4⟩ := hg2
            subst hg3 hg4
            refine ⟨?_, rfl⟩
            have hc : tool.version ≠ some latest := by
              rw [hv]
              intro hcc
              exact he (Option.some.inj hcc).symm
            rw [if_pos ⟨ht, hc⟩]
    next ht =>
      injection h with h
      rw [Prod.mk.injEq, Prod.mk.injEq] at h
      obtain ⟨h1, h2, h3⟩ := h
      subst h1 h2 h3
      refine ⟨by simp, fun _ => rfl, ?_⟩
      intro l2 n2 hg2
      rw [Except.ok.injEq, Prod.mk.injEq] at hg2
      obtain ⟨hg3, hg4⟩ := hg2
      subst hg3 hg4
      simp [ht]

/-- The updated flag of the whole run is set exactly when some entry
version changed. -/
theorem update_versions_writes_iff :
    ∀ ts net out w netf, update_versions ts net = .ok (out, w, netf) →
      (w = true ↔ ∃ p ∈ ts.zip out, p.2.version ≠ p.1.version) := by
  intro ts
  induction ts with
  | nil =>
    intro net out w netf h
    injection h with h
    rw [Prod.mk.injEq, Prod.mk.injEq] at h
    obtain ⟨h1, h2, h3⟩ := h
    subst h1 h2 h3
    simp
  | cons t ts ih =>
    intro net out w netf h
    unfold update_versions at h
    cases hu : updateTool t net with
    | error e =>
      rw [hu] at h
      exact Except.noConfusion h
    | ok p =>
      rcases p with ⟨t1, u1, net1⟩
      rw [hu] at h
      simp only [exceptOkBind] at h
      cases hrec : update_versions ts net1 with
      | error e =>
        rw [hrec] at h
        exact Except.noConfusion h
      | ok q =>
        rcases q with ⟨ts1, u2, net2⟩
        rw [hrec] at h
        simp only [exceptOkBind] at h
        injection h with h
        rw [Prod.mk.injEq, Prod.mk.injEq] at h
        obtain ⟨h1, h2, h3⟩ := h
        subst h1 h2 h3
        have hone := (updateTool_spec t net t1 u1 net1 hu).1
        have hrest := ih net1 ts1 u2 net2 hrec
        simp only [List.zip_cons_cons, List.mem_cons, Bool.or_eq_true]
        constructor
        · intro hw
          rcases hw with hw | hw
          · exact ⟨(t, t1), Or.inl rfl, hone.mp hw⟩
          · obtain ⟨p, hp1, hp2⟩ := hrest.mp hw
            exact ⟨p, Or.inr hp1, hp2⟩
        · intro ⟨p, hp1, hp2⟩
          rcases hp1 with hp1 | hp1
          · subst hp1
            exact Or.inl (hone.mpr hp2)
          · exact Or.inr (hrest.mpr ⟨p, hp1, hp2⟩)

/-- C9: for each entry, the sibling routine update_versions fetches
the latest release tag and rewrites the version field in place exactly
when the fetched tag is truthy and differs from the stored version
(unchanged entries are returned as is), and the catalog file is
written back exactly when at least one entry version changed. -/
theorem update_versions_spec :
    (∀ tool net t1 u net1, updateTool tool net = .ok (t1, u, net1) →
      (u = true ↔ t1.version ≠ tool.version)
      ∧ (u = false → t1 = tool)
      ∧ (∀ latest netg, get_latest_version tool.url net = .ok (latest, netg) →
          t1.version = (if latest.truthy = true ∧ tool.version ≠ some latest
                        then some latest else tool.version)
          ∧ net1 = netg))
  ∧ (∀ ts net out w netf, update_versions ts net = .ok (out, w, netf) →
      (w = true ↔ ∃ p ∈ ts.zip out, p.2.version ≠ p.1.version)) :=
  ⟨updateTool_spec, update_versions_writes_iff⟩

/-- Witness for update_versions_spec: a single entry whose fetched tag
v2 differs from the stored version, so the entry is rewritten and the
run reports a write. -/
theorem update_versions_spec_witness :
    ((true = true) ↔ ((⟨some "https://github.com/u/r.git", some (PyVal.vstr "v2"), []⟩ : UTool).version
        ≠ (⟨some "https://github.com/u/r.git", some (PyVal.vstr "1.0"), []⟩ : UTool).version))
    ∧ ((true = true) ↔ ∃ p ∈ List.zip
          [(⟨some "https://github.com/u/r.git", some (PyVal.vstr "1.0"), []⟩ : UTool)]
          [(⟨some "https://github.com/u/r.git", some (PyVal.vstr "v2"), []⟩ : UTool)],
        p.2.version ≠ p.1.version) :=
  ⟨(update_versions_spec.1
      ⟨some "https://github.com/u/r.git", some (PyVal.vstr "1.0"), []⟩
      [.resp ⟨200, some (PyVal.vdict (.dcons "tag_name" (PyVal.vstr "v2") .dnil)), none⟩]
      ⟨some "https://github.com/u/r.git", some (PyVal.vstr "v2"), []⟩ true []
      (by decide)).1,
   update_versions_spec.2
      [⟨some "https://github.com/u/r.git", some (PyVal.vstr "1.0"), []⟩]
      [.resp ⟨200, some (PyVal.vdict (.dcons "tag_name" (PyVal.vstr "v2") .dnil)), none⟩]
      [⟨some "https://github.com/u/r.git", some (PyVal.vstr "v2"), []⟩] true []
      (by decide)⟩

theorem lookup_to_mem {α β : Type} [BEq α] [LawfulBEq α] {k : α} {v : β} :
    ∀ {l : List (α × β)}, List.lookup k l = some v → (k, v) ∈ l := by
  intro l h
  induction l with
  | nil => simp [List.lookup] at h
  | cons p ps ih =>
    rw [List.lookup] at h
    split at h
    · rename_i heq
      injection h with h
      subst h
      have hk : k = p.1 := by simpa using heq
      rw [hk, Prod.mk.eta]
      exact List.mem_cons_self _ _
    · right
      exact ih h

theorem asciiPairs_facts :
    ∀ p ∈ asciiPairs, pyIsSpace p.1 = false ∧ pyIsSpace p.2 = false
      ∧ asciiPairs.lookup p.2 = none := by decide

theorem pyCharLower_idem (c : Char) : pyCharLower (pyCharLower c) = pyCharLower c := by
  unfold pyCharLower
  cases hc : asciiPairs.lookup c with
  | none => simp [hc]
  | some v =>
    have hmem := lookup_to_mem hc
    have hfacts := asciiPairs_facts (c, v) hmem
    simp [hc, hfacts.2.2]

theorem pyIsSpace_pyCharLower (c : Char) : pyIsSpace (pyCharLower c) = pyIsSpace c := by
  unfold pyCharLower
  cases hc : asciiPairs.lookup c with
  | none => simp
  | some v =>
    have hmem := lookup_to_mem hc
    have hfacts := asciiPairs_facts (c, v) hmem
    simp [hfacts.1, hfacts.2.1]

theorem dropWhile_head_false {p : Char → Bool} :
    ∀ {l x xs}, List.dropWhile p l = x :: xs → p x = false := by
  intro l
  induction l with
  | nil => intro x xs h; exact List.noConfusion h
  | cons a l ih =>
    intro x xs h
    rw [List.dropWhile_cons] at h
    split at h
    · exact ih h
    · injection h with h1 h2
      subst h1
      simp_all

theorem dropWhile_dropWhile (p : Char → Bool) (l : List Char) :
    List.dropWhile p (List.dropWhile p l) = List.dropWhile p l := by
  cases hd : List.dropWhile p l with
  | nil => rfl
  | cons x xs =>
    have hx : p x = false := dropWhile_head_false hd
    rw [List.dropWhile_cons, hx]
    simp

theorem dropWhile_append_singleton {p : Char → Bool} {x : Char} (hx : p x = false)
    (ys : List Char) :
    List.dropWhile p (ys ++ [x]) = List.dropWhile p ys ++ [x] := by
  induction ys with
  | nil => simp [List.dropWhile_cons, hx]
  | cons y ys ih =>
    rw [List.cons_append, List.dropWhile_cons, List.dropWhile_cons]
    split <;> simp [ih]

theorem stripList_idem (p : Char → Bool) (l : List Char) :
    stripList p (stripList p l) = stripList p l := by
  cases hd : List.dropWhile p l with
  | nil =>
    have h1 : stripList p l = [] := by
      unfold stripList
      rw [hd]
      rfl
    rw [h1]
    rfl
  | cons x xs =>
    have hx : p x = false := dropWhile_head_false hd
    have key : stripList p l = x :: (List.dropWhile p xs.reverse).reverse := by
      unfold stripList
      rw [hd, List.reverse_cons, dropWhile_append_singleton hx, List.reverse_append]
      simp
    rw [key]
    unfold stripList
    rw [List.dropWhile_cons, hx]
    simp only [Bool.false_eq_true, if_false, List.reverse_cons, List.reverse_reverse]
    rw [dropWhile_append_singleton hx, dropWhile_dropWhile, List.reverse_append]
    simp

theorem stripList_map_comm (f : Char → Char) (p : Char → Bool)
    (hpf : ∀ c, p (f c) = p c) (l : List Char) :
    stripList p (l.map f) = (stripList p l).map f := by
  have hfun : p ∘ f = p := funext hpf
  unfold stripList
  rw [List.dropWhile_map, hfun, ← List.map_reverse, List.dropWhile_map, hfun,
    ← List.map_reverse]

theorem pyStrip_pyLower_comm (s : String) : pyStrip (pyLower s) = pyLower (pyStrip s) := by
  unfold pyStrip pyLower
  exact congrArg String.mk (stripList_map_comm pyCharLower pyIsSpace pyIsSpace_pyCharLower s.data)

theorem pyStrip_idem (s : String) : pyStrip (pyStrip s) = pyStrip s := by
  unfold pyStrip
  exact congrArg String.mk (stripList_idem pyIsSpace s.data)

theorem pyLower_idem (s : String) : pyLower (pyLower s) = pyLower s := by
  unfold pyLower
  refine congrArg String.mk ?_
  show (s.data.map pyCharLower).map pyCharLower = s.data.map pyCharLower
  rw [List.map_map]
  exact List.map_congr_left (fun c _ => pyCharLower_idem c)

theorem pyNorm_idem (s : String) :
    pyLower (pyStrip (pyLower (pyStrip s))) = pyLower (pyStrip s) := by
  rw [pyStrip_pyLower_comm, pyStrip_idem, pyLower_idem]

theorem CATEGORY_MAP_facts :
    ∀ p ∈ CATEGORY_MAP, pyLower (pyStrip p.2) = p.2 ∧ CATEGORY_MAP.lookup p.2 = none
      ∧ pyLower p.2 = p.2 := by decide

theorem normCatElem_idem (s : String) : normCatElem (normCatElem s) = normCatElem s := by
  unfold normCatElem
  cases hlk : CATEGORY_MAP.lookup (pyLower (pyStrip s)) with
  | none => simp [hlk, pyNorm_idem]
  | some v =>
    have hfacts := CATEGORY_MAP_facts (pyLower (pyStrip s), v) (lookup_to_mem hlk)
    simp [hlk, hfacts.1, hfacts.2.1]

theorem normCatElem_lower (s : String) : pyLower (normCatElem s) = normCatElem s := by
  unfold normCatElem
  cases hlk : CATEGORY_MAP.lookup (pyLower (pyStrip s)) with
  | none => simp [hlk, pyLower_idem]
  | some v =>
    have hfacts := CATEGORY_MAP_facts (pyLower (pyStrip s), v) (lookup_to_mem hlk)
    simp [hlk, hfacts.2.2]

/-- Reduction of Except.map over a success value. -/
@[simp] theorem exceptMapOk {ε α β : Type} (f : α → β) (a : α) :
    Except.map f (Except.ok a : Except ε α) = .ok (f a) := rfl

/-- A category list of plain strings, as it appears in the catalog. -/
def strCats (l : List String) : PyVal := PyVal.vlist (PyList.ofList (l.map PyVal.vstr))

theorem normPyList_strings (l : List String) :
    normPyList (PyList.ofList (l.map PyVal.vstr)) = .ok (l.map normCatElem) := by
  induction l with
  | nil => rfl
  | cons a l ih => simp [PyList.ofList, normPyList, ih]

theorem normalize_strCats (l : List String) :
    normalize_category (strCats l)
      = .ok (if l = [] then ["uncategorized"] else (l.map normCatElem).dedup) := by
  cases l with
  | nil => rfl
  | cons a l =>
    have ht : (strCats (a :: l)).truthy = true := rfl
    unfold normalize_category
    rw [ht]
    simp only [Bool.true_eq_false, if_false]
    show (normPyList (PyList.ofList ((a :: l).map PyVal.vstr))).map List.dedup = _
    rw [normPyList_strings]
    simp

theorem dedup_map_fixed (l : List String) :
    ((l.map normCatElem).dedup).map normCatElem = (l.map normCatElem).dedup := by
  have h1 : ∀ x ∈ (l.map normCatElem).dedup, normCatElem x = x := by
    intro x hx
    rw [List.mem_dedup] at hx
    obtain ⟨y, _, rfl⟩ := List.mem_map.mp hx
    exact normCatElem_idem y
  calc ((l.map normCatElem).dedup).map normCatElem
      = ((l.map normCatElem).dedup).map id := List.map_congr_left h1
    _ = (l.map normCatElem).dedup := List.map_id _

theorem norm_idem {l out : List String}
    (h : normalize_category (strCats l) = .ok out) :
    normalize_category (strCats out) = .ok out := by
  rw [normalize_strCats] at h
  injection h with h
  by_cases hnil : l = []
  · subst hnil
    rw [if_pos rfl] at h
    subst h
    decide
  · rw [if_neg hnil] at h
    subst h
    rw [normalize_strCats]
    have hd : (l.map normCatElem).dedup ≠ [] := by
      intro hcon
      rw [List.dedup_eq_nil] at hcon
      exact hnil (by simpa using hcon)
    rw [if_neg hd, dedup_map_fixed, List.Nodup.dedup (List.nodup_dedup _)]

theorem norm_perm {l l' out out' : List String} (hp : l.Perm l')
    (h : normalize_category (strCats l) = .ok out)
    (h' : normalize_category (strCats l') = .ok out') :
    ∀ x, x ∈ out ↔ x ∈ out' := by
  rw [normalize_strCats] at h h'
  injection h with h
  injection h' with h'
  by_cases hnil : l = []
  · have hnil' : l' = [] := by
      subst hnil
      exact hp.symm.eq_nil
    rw [if_pos hnil] at h
    rw [if_pos hnil'] at h'
    subst h h'
    intro x
    rfl
  · have hnil' : l' ≠ [] := by
      intro hcon
      subst hcon
      exact hnil hp.eq_nil
    rw [if_neg hnil] at h
    rw [if_neg hnil'] at h'
    subst h h'
    intro x
    rw [List.mem_dedup, List.mem_dedup]
    exact (hp.map normCatElem).mem_iff

/-! ### C5: normalize_category is idempotent and order-independent -/

/-- C5: normalize_category is idempotent (renormalizing its output
returns the output itself, hence the same set) and order-independent
(permuting the input yields an output with the same members), and on
the example list it yields exactly termux and wireless. -/
theorem normalize_category_idem_perm :
    (∀ l out, normalize_category (strCats l) = .ok out →
       normalize_category (strCats out) = .ok out)
  ∧ (∀ l l' out out', l.Perm l' →
       normalize_category (strCats l) = .ok out →
       normalize_category (strCats l') = .ok out' →
       ∀ x, x ∈ out ↔ x ∈ out')
  ∧ normalize_category (strCats ["Termux OS", "wireless_tools"]) = .ok ["termux", "wireless"]
  ∧ (∀ x : String, x ∈ (["termux", "wireless"] : List String)
       ↔ (x = "termux" ∨ x = "wireless")) := by
  refine ⟨fun l out h => norm_idem h,
    fun l l' out out' hp h h' => norm_perm hp h h', by decide, ?_⟩
  intro x
  simp

/-- Witness for normalize_category_idem_perm: idempotence and
order-independence at the example list. -/
theorem normalize_category_idem_perm_witness :
    normalize_category (strCats ["termux", "wireless"]) = .ok ["termux", "wireless"]
    ∧ (∀ x, x ∈ (["termux", "wireless"] : List String)
         ↔ x ∈ (["wireless", "termux"] : List String)) :=
  ⟨normalize_category_idem_perm.1 ["Termux OS", "wireless_tools"] ["termux", "wireless"]
     (by decide),
   normalize_category_idem_perm.2.1 ["Termux OS", "wireless_tools"]
     ["wireless_tools", "Termux OS"] ["termux", "wireless"] ["wireless", "termux"]
     (by decide) (by decide) (by decide)⟩

theorem normPyList_elems :
    ∀ (l : PyList) (res : List String), normPyList l = .ok res →
      ∀ x ∈ res, ∃ s, x = normCatElem s
  | .nil, res, h => by
    injection h with h
    subst h
    simp
  | .cons (.vstr s) rest, res, h => by
    rw [normPyList] at h
    cases hr : normPyList rest with
    | error e => rw [hr] at h; exact Except.noConfusion h
    | ok t =>
      rw [hr] at h
      simp only [exceptMapOk] at h
      injection h with h
      subst h
      intro x hx
      rcases List.mem_cons.mp hx with hx | hx
      · exact ⟨s, hx⟩
      · exact normPyList_elems rest t hr x hx
  | .cons .vnull _, _, h => Except.noConfusion h
  | .cons (.vbool _) _, _, h => Except.noConfusion h
  | .cons (.vint _) _, _, h => Except.noConfusion h
  | .cons (.vlist _) _, _, h => Except.noConfusion h
  | .cons (.vdict _) _, _, h => Except.noConfusion h

/-- Reduction of the Except monad bind over an error value. -/
@[simp] theorem exceptErrBind {ε α β : Type} (e : ε) (f : α → Except ε β) :
    ((Except.error e : Except ε α) >>= f) = .error e := rfl

theorem norm_props {c : PyVal} {cats : List String}
    (h : normalize_category c = .ok cats) :
    cats.Nodup ∧ ∀ s ∈ cats, pyLower s = s := by
  unfold normalize_category at h
  split at h
  · injection h with h
    subst h
    refine ⟨by simp, ?_⟩
    intro s hs
    simp at hs
    subst hs
    decide
  · rename_i hns
    split at h
    next s =>
      injection h with h
      subst h
      refine ⟨by simp, ?_⟩
      intro x hx
      simp at hx
      subst hx
      exact normCatElem_lower s
    next l =>
      cases hnl : normPyList l with
      | error e => rw [hnl] at h; exact Except.noConfusion h
      | ok res =>
        rw [hnl] at h
        simp only [exceptMapOk] at h
        injection h with h
        subst h
        refine ⟨List.nodup_dedup _, ?_⟩
        intro x hx
        rw [List.mem_dedup] at hx
        obtain ⟨s, rfl⟩ := normPyList_elems l res hnl x hx
        exact normCatElem_lower s
    next d =>
      injection h with h
      subst h
      refine ⟨List.nodup_dedup _, ?_⟩
      intro x hx
      rw [List.mem_dedup] at hx
      obtain ⟨s, _, rfl⟩ := List.mem_map.mp hx
      exact normCatElem_lower s
    next =>
      exact Except.noConfusion h

theorem applyMeta_category (i : Item) (m : Meta) : (applyMeta i m).category = i.category := by
  unfold applyMeta
  split <;> rfl

theorem processItem_category {item : Item} {net : Net} {it1 : Item} {sk : Bool} {net1 : Net}
    (h : processItem item net = .ok (it1, sk, net1)) :
    ∃ cats, normalize_category item.category = .ok cats
      ∧ it1.category = PyVal.vlist (PyList.ofList (cats.map PyVal.vstr)) := by
  unfold processItem at h
  cases hn : normalize_category item.category with
  | error e => rw [hn] at h; exact Except.noConfusion h
  | ok cats =>
    rw [hn] at h
    simp only [exceptOkBind] at h
    refine ⟨cats, rfl, ?_⟩
    cases hr : rewriteVersion
        { item with category := PyVal.vlist (PyList.ofList (cats.map PyVal.vstr)) } with
    | error e =>
      rw [hr] at h
      simp only [exceptErrBind] at h
      exact Except.noConfusion h
    | ok it2 =>
      rw [hr] at h
      simp only [exceptOkBind] at h
      have hcat2 : it2.category = PyVal.vlist (PyList.ofList (cats.map PyVal.vstr)) :=
        (rewriteVersion_fields hr).1
      split at h
      next path heq =>
        cases hf : fetch_github_meta (path.getD "") net with
        | error e =>
          rw [hf] at h
          simp only [exceptErrBind] at h
          exact Except.noConfusion h
        | ok q =>
          rcases q with ⟨meta, netx⟩
          rw [hf] at h
          simp only [exceptOkBind] at h
          injection h with h
          rw [Prod.mk.injEq, Prod.mk.injEq] at h
          obtain ⟨h1, h2, h3⟩ := h
          subst h1
          rw [applyMeta_category, hcat2]
      next path heq =>
        cases hf : fetch_gitlab_meta (path.getD "") net with
        | error e =>
          rw [hf] at h
          simp only [exceptErrBind] at h
          exact Except.noConfusion h
        | ok q =>
          rcases q with ⟨meta, netx⟩
          rw [hf] at h
          simp only [exceptOkBind] at h
          injection h with h
          rw [Prod.mk.injEq, Prod.mk.injEq] at h
          obtain ⟨h1, h2, h3⟩ := h
          subst h1
          rw [applyMeta_category, hcat2]
      next =>
        injection h with h
        rw [Prod.mk.injEq, Prod.mk.injEq] at h
        obtain ⟨h1, h2, h3⟩ := h
        subst h1
        rw [hcat2]

/-! ### C6: category invariant of the output catalog -/

/-- C6: normalizing an absent/None category yields exactly the
sentinel list, and in every catalog written by enhance_data every
entry category is a deduplicated list of lowercase strings (strings
fixed by str.lower). -/
theorem category_invariant :
    normalize_category PyVal.vnull = .ok ["uncategorized"]
  ∧ (∀ cat : List (String × Item), ∀ net out sk netf,
      enhance_data cat net = .ok (out, sk, netf) →
      ∀ p ∈ out, ∃ cats : List String,
        p.2.category = PyVal.vlist (PyList.ofList (cats.map PyVal.vstr))
        ∧ cats.Nodup ∧ ∀ s ∈ cats, pyLower s = s) := by
  refine ⟨rfl, ?_⟩
  intro cat
  induction cat with
  | nil =>
    intro net out sk netf h
    injection h with h
    rw [Prod.mk.injEq, Prod.mk.injEq] at h
    obtain ⟨h1, h2, h3⟩ := h
    subst h1
    simp
  | cons q rest ih =>
    intro net out sk netf h
    rcases q with ⟨k, item⟩
    unfold enhance_data at h
    cases hp : processItem item net with
    | error e => rw [hp] at h; exact Except.noConfusion h
    | ok t =>
      rcases t with ⟨it1, skip, net1⟩
      rw [hp] at h
      simp only [exceptOkBind] at h
      cases hrec : enhance_data rest net1 with
      | error e => rw [hrec] at h; exact Except.noConfusion h
      | ok t2 =>
        rcases t2 with ⟨out2, sk2, net2⟩
        rw [hrec] at h
        simp only [exceptOkBind] at h
        injection h with h
        rw [Prod.mk.injEq, Prod.mk.injEq] at h
        obtain ⟨h1, h2, h3⟩ := h
        subst h1
        intro p hp2
        rcases List.mem_cons.mp hp2 with hp2 | hp2
        · subst hp2
          obtain ⟨cats, hcats, hcat⟩ := processItem_category hp
          obtain ⟨hnodup, hlower⟩ := norm_props hcats
          exact ⟨cats, hcat, hnodup, hlower⟩
        · exact ih net1 out2 sk2 net2 hrec p hp2

/-- Witness for category_invariant: the skipped sample entry of the
two-entry run carries the sentinel category list. -/
theorem category_invariant_witness :
    ∃ cats : List String, passedToolB.category = PyVal.vlist (PyList.ofList (cats.map PyVal.vstr))
      ∧ cats.Nodup ∧ ∀ s ∈ cats, pyLower s = s :=
  category_invariant.2 [("ToolA", sampleToolA), ("ToolB", sampleToolB)] []
    [("ToolA", enrichedToolA), ("ToolB", passedToolB)] ["ToolB"] [] (by decide)
    ("ToolB", passedToolB) (by simp)
